import Mathlib

/-!
Shallow embedding of a small tape-language interpreter (`src/main.rs`):
lexer (`lex`), parser (`parse`) and execution engine (`run`), together with
theorems checking the specification's claims against this embedding.

Strings are modelled as `List Char`, byte cells as `Nat` (the source works
on `u8`; all writes the source performs keep cells below 256), the growable
tape as `List Nat`, and the process's standard input as a list of lines.
-/

set_option maxHeartbeats 1000000

namespace BF

/-- The eight instruction tokens (`enum Token` in the source). -/
inductive Token
  | increment
  | decrement
  | shiftLeft
  | shiftRight
  | input
  | output
  | beginLoop
  | endLoop
  deriving DecidableEq, Repr

/-- Syntax tree nodes (`enum SyntaxItem` in the source): a single
instruction or a loop wrapping a body sequence. -/
inductive SyntaxItem
  | single (t : Token)
  | loop (body : List SyntaxItem)

/-- The per-character token map used by the lexer's `filter_map` closure:
any character other than the eight instruction symbols maps to `none`. -/
def charToken (c : Char) : Option Token :=
  if c = '+' then some Token.increment
  else if c = '-' then some Token.decrement
  else if c = '<' then some Token.shiftLeft
  else if c = '>' then some Token.shiftRight
  else if c = ',' then some Token.input
  else if c = '.' then some Token.output
  else if c = '[' then some Token.beginLoop
  else if c = ']' then some Token.endLoop
  else none

/-- Embedding of `fn lex` from the source: keep recognized instruction characters, in
order, and drop everything else. -/
def lex (input : List Char) : List Token :=
  input.filterMap charToken

/-- The bracket-matching scan inside `fn parse`'s `BeginLoop` arm: walk the
characters of the remaining slice with a depth counter starting at 1
(incremented on a loop-begin character, decremented on a loop-end
character) and an index counter incremented for every character looked at;
stop as soon as the counter reaches 0, returning the index just past the
matching close character.  Returns `none` when the characters run out with
the counter still non-zero, which the source turns into a panic. -/
def scanBody : List Char → Nat → Nat → Option Nat
  | [], _, _ => none
  | c :: rest, counter, index =>
    let counter' := if c = '[' then counter + 1
                    else if c = ']' then counter - 1 else counter
    if counter' = 0 then some (index + 1) else scanBody rest counter' (index + 1)

/-- Result of `fn parse`.  The source's signature is
`Result<Vec<SyntaxItem>, String>`: `ok` is the `Ok` case, `err` the `Err`
case (which the source never actually constructs), and `panicked` records a
process abort raised by `panic!` or `.expect`. -/
inductive PRes
  | ok (items : List SyntaxItem)
  | err (msg : List Char)
  | panicked

/-- The main loop of `fn parse`, iterating over the enumerated token list
while holding on to the raw character string `input`.  Faithful to the
source, including its use of the token index `i` to slice the raw
character string (`&input[i + 1..]`), the skip of `index` iterator
positions after a parsed loop, and the `continue` on a stray `EndLoop`. -/
def parseAux (input : List Char) (toks : List (Nat × Token)) : PRes :=
  match toks with
  | [] => .ok []
  | (i, t) :: rest =>
    match t with
    | Token.beginLoop =>
      match h : scanBody (input.drop (i + 1)) 1 0 with
      | none => .panicked
      | some index =>
        let innerSlice := (input.drop (i + 1)).take index
        match parseAux innerSlice ((lex innerSlice).enum) with
        | .ok item =>
          match parseAux input (rest.drop index) with
          | .ok tree => .ok (SyntaxItem.loop item :: tree)
          | e => e
        | _ => .panicked
    | Token.endLoop => parseAux input rest
    | t => -- the six plain instructions
      match parseAux input rest with
      | .ok tree => .ok (SyntaxItem.single t :: tree)
      | e => e
termination_by (input.length, toks.length)
decreasing_by
  · apply Prod.Lex.left
    have hne : input.drop (i + 1) ≠ [] := by
      intro hnil
      rw [hnil] at h
      simp [scanBody] at h
    have hlt : i + 1 < input.length := by
      by_contra hc
      exact hne (List.drop_eq_nil_of_le (Nat.le_of_not_lt hc))
    have h1 : ((input.drop (i + 1)).take index).length ≤ (input.drop (i + 1)).length := by
      simp
    have h2 : (input.drop (i + 1)).length = input.length - (i + 1) :=
      List.length_drop (i + 1) input
    omega
  all_goals
    apply Prod.Lex.right
    simp only [List.length_cons, List.length_drop]
    omega

/-- Embedding of `fn parse` from the source: lex the input, then run the main parsing
loop over the enumerated tokens. -/
def parse (input : List Char) : PRes :=
  parseAux input ((lex input).enum)

/-- A byte cell, kept as a `Nat` (the source's `u8` values). -/
abbrev Cells := List Nat

/-- One line read from standard input, as its characters. -/
abbrev Line := List Char

/-- The bytes written to standard output during a run. -/
abbrev Out := List Nat

/-- Failure modes of the execution engine: `outOfFuel` marks a run that
did not finish within the step budget of the fuelled semantics;
`outOfBounds` is the panic raised by indexing `data[pointer]` outside the
tape; `inputParse` is the `panic!("Could not parse input.")` in the
`Token::Input` arm. -/
inductive RunErr
  | outOfFuel
  | outOfBounds
  | inputParse
  deriving DecidableEq, Repr

/-- Result of running some commands: the final tape, pointer, remaining
input lines, and the bytes emitted, or an error. -/
abbrev RunRes := Except RunErr (Cells × Nat × List Line × Out)

/-- The `Token::Increment` update of the current cell: `if v == 255 { 0 }
else { v + 1 }`. -/
def incCell (v : Nat) : Nat := if v = 255 then 0 else v + 1

/-- The `Token::Decrement` update of the current cell: `if v == 0 { 255 }
else { v - 1 }`. -/
def decCell (v : Nat) : Nat := if v = 0 then 255 else v - 1

/-- Embedding of `str::trim` as used on the line read for `Token::Input`: drop leading
and trailing whitespace characters. -/
def rustTrim (l : List Char) : List Char :=
  ((l.dropWhile Char.isWhitespace).reverse.dropWhile Char.isWhitespace).reverse

/-- Embedding of `str::parse::<u8>()` on the trimmed line: an optional leading `+`
followed by at least one ASCII digit, with a value of at most 255;
everything else (including a leading `-` on this unsigned type, an empty
string, or an overflowing value) is a parse error. -/
def parseU8 (l : List Char) : Option Nat :=
  let digits := match l with
    | '+' :: rest => rest
    | _ => l
  if digits ≠ [] ∧ digits.all Char.isDigit then
    let v := digits.foldl (fun a c => a * 10 + (c.toNat - 48)) 0
    if v ≤ 255 then some v else none
  else none

/-- Writing `data[pointer] = v`: in bounds it updates the cell, out of
bounds it is an index panic (`none`). -/
def setCell (data : Cells) (ptr v : Nat) : Option Cells :=
  if ptr < data.length then some (data.set ptr v) else none

/-- One `SyntaxItem::Single(t)` step of `fn run`, for each of the eight
tokens.  `Token::Input` models `read_line` as taking the next line of
`stdin` (an exhausted stdin reads as the empty line, which is what
`read_line` yields at end of input); `Token::Output` emits the current
cell.  `BeginLoop`/`EndLoop` fall through (`continue` in the source). -/
def execSingle (t : Token) (data : Cells) (ptr : Nat) (stdin : List Line) : RunRes :=
  match t with
  | Token.increment =>
    match data[ptr]? with
    | none => .error .outOfBounds
    | some v => .ok (data.set ptr (incCell v), ptr, stdin, [])
  | Token.decrement =>
    match data[ptr]? with
    | none => .error .outOfBounds
    | some v => .ok (data.set ptr (decCell v), ptr, stdin, [])
  | Token.shiftLeft =>
    if ptr > 0 then .ok (data, ptr - 1, stdin, [])
    else .ok (0 :: data, ptr, stdin, [])
  | Token.shiftRight => .ok (data ++ [0], ptr + 1, stdin, [])
  | Token.input =>
    let line := stdin.headD []
    let rest := stdin.tail
    let t := rustTrim line
    match parseU8 t with
    | some i =>
      match setCell data ptr i with
      | some data' => .ok (data', ptr, rest, [])
      | none => .error .outOfBounds
    | none =>
      match t with
      | c :: _ =>
        match setCell data ptr (c.toNat % 256) with
        | some data' => .ok (data', ptr, rest, [])
        | none => .error .outOfBounds
      | [] => .error .inputParse
  | Token.output =>
    match data[ptr]? with
    | none => .error .outOfBounds
    | some v => .ok (data, ptr, stdin, [v])
  | Token.beginLoop => .ok (data, ptr, stdin, [])
  | Token.endLoop => .ok (data, ptr, stdin, [])

/-- Work items for the fuelled execution engine: a command sequence, a
single command, or the `while state.data[state.pointer] != 0` loop of a
`SyntaxItem::Loop` node carrying the cloned run-state `s` (its tape
`sData` and pointer `sPtr`) alongside the live machine state. -/
inductive Job
  | items (cmds : List SyntaxItem)
  | item (c : SyntaxItem)
  | loopStep (v : List SyntaxItem) (sData : Cells) (sPtr : Nat)

/-- The recursion of `fn run`, with a fuel budget decremented on every
recursive call (running out of fuel is reported as `outOfFuel`).  The
`loopStep` case is the source's loop protocol verbatim: test the *live*
cell `data[ptr]`, run the body against the cloned state `(sData, sPtr)`,
then copy the clone's tape and pointer back into the live state before
re-testing. -/
def runJob : Nat → Job → Cells → Nat → List Line → RunRes
  | 0, _, _, _, _ => .error .outOfFuel
  | fuel + 1, job, data, ptr, stdin =>
    match job with
    | .items [] => .ok (data, ptr, stdin, [])
    | .items (c :: rest) =>
      match runJob fuel (.item c) data ptr stdin with
      | .error e => .error e
      | .ok (d1, p1, in1, o1) =>
        match runJob fuel (.items rest) d1 p1 in1 with
        | .error e => .error e
        | .ok (d2, p2, in2, o2) => .ok (d2, p2, in2, o1 ++ o2)
    | .item (.single t) => execSingle t data ptr stdin
    | .item (.loop v) => runJob fuel (.loopStep v data ptr) data ptr stdin
    | .loopStep v sData sPtr =>
      match data[ptr]? with
      | none => .error .outOfBounds
      | some cell =>
        if cell = 0 then .ok (data, ptr, stdin, [])
        else
          match runJob fuel (.items v) sData sPtr stdin with
          | .error e => .error e
          | .ok (d1, p1, in1, o1) =>
            match runJob fuel (.loopStep v d1 p1) d1 p1 in1 with
            | .error e => .error e
            | .ok (d2, p2, in2, o2) => .ok (d2, p2, in2, o1 ++ o2)

/-- The execution state (`struct State` in the source): the tape, the
pointer, and the parsed program. -/
structure State where
  data : Cells
  pointer : Nat
  commands : List SyntaxItem

/-- Embedding of `State::new`: an empty tape with a single 0 cell pushed, pointer 0. -/
def State.new (commands : List SyntaxItem) : State :=
  { data := [0], pointer := 0, commands := commands }

/-- Embedding of `fn run(state: &mut State)` with a fuel budget: execute the state's
command list, returning the updated state, the remaining input lines and
the output bytes. -/
def run (fuel : Nat) (st : State) (stdin : List Line) :
    Except RunErr (State × List Line × Out) :=
  match runJob fuel (.items st.commands) st.data st.pointer stdin with
  | .error e => .error e
  | .ok (d, p, in1, o) => .ok ({ st with data := d, pointer := p }, in1, o)

/-- Work items for the spec's live-mutation semantics: as `Job`, but a
loop carries no cloned state. -/
inductive JobL
  | items (cmds : List SyntaxItem)
  | item (c : SyntaxItem)
  | loopStep (v : List SyntaxItem)

/-- Modelled from the spec: the live-mutation loop semantics of §4.3 —
"while `cells[pointer] != 0`, execute the loop body's nodes once against
the *same* tape and pointer", re-checking the live cell before every
iteration.  Identical to `runJob` except that the loop body runs directly
against the live tape and pointer, with no cloned state and no copy-back. -/
def runJobLive : Nat → JobL → Cells → Nat → List Line → RunRes
  | 0, _, _, _, _ => .error .outOfFuel
  | fuel + 1, job, data, ptr, stdin =>
    match job with
    | .items [] => .ok (data, ptr, stdin, [])
    | .items (c :: rest) =>
      match runJobLive fuel (.item c) data ptr stdin with
      | .error e => .error e
      | .ok (d1, p1, in1, o1) =>
        match runJobLive fuel (.items rest) d1 p1 in1 with
        | .error e => .error e
        | .ok (d2, p2, in2, o2) => .ok (d2, p2, in2, o1 ++ o2)
    | .item (.single t) => execSingle t data ptr stdin
    | .item (.loop v) => runJobLive fuel (.loopStep v) data ptr stdin
    | .loopStep v =>
      match data[ptr]? with
      | none => .error .outOfBounds
      | some cell =>
        if cell = 0 then .ok (data, ptr, stdin, [])
        else
          match runJobLive fuel (.items v) data ptr stdin with
          | .error e => .error e
          | .ok (d1, p1, in1, o1) =>
            match runJobLive fuel (.loopStep v) d1 p1 in1 with
            | .error e => .error e
            | .ok (d2, p2, in2, o2) => .ok (d2, p2, in2, o1 ++ o2)

/-- Decidable equality for `Except`, so that concrete runs can be checked
by `decide`. -/
instance {e a : Type} [DecidableEq e] [DecidableEq a] : DecidableEq (Except e a) := fun x y =>
  match x, y with
  | .ok a, .ok b => if h : a = b then isTrue (by rw [h]) else isFalse (by simp [h])
  | .error a, .error b => if h : a = b then isTrue (by rw [h]) else isFalse (by simp [h])
  | .ok _, .error _ => isFalse (by simp)
  | .error _, .ok _ => isFalse (by simp)

/-- Precondition on a work item under which execution preserves pointer
validity: the live pointer is on the tape, and for a loop step the cloned
state's pointer is on the cloned tape, whose length is at least the live
tape's. -/
def jobPre : Job → Cells → Nat → Prop
  | .items _, d, p => p < d.length
  | .item _, d, p => p < d.length
  | .loopStep _ sD sP, d, p => p < d.length ∧ sP < sD.length ∧ d.length ≤ sD.length

mutual

/-- Returns `true` when every `single` leaf of the node wraps one of the six
non-bracket instructions. -/
def itemLeavesOK : SyntaxItem → Bool
  | .single t => decide (t ≠ Token.beginLoop ∧ t ≠ Token.endLoop)
  | .loop v => itemsLeavesOK v

/-- Conjunction of `itemLeavesOK` over a node sequence. -/
def itemsLeavesOK : List SyntaxItem → Bool
  | [] => true
  | c :: rest => itemLeavesOK c && itemsLeavesOK rest

end

end BF

namespace BF

/-! ### Claim theorems -/

/-- Counterexample to C4.  The claim says the tape's length is unchanged
when the pointer is not at the last cell; but on the tape `[0, 0]` with
pointer 0 (not the last cell), pointer-right still appends a cell: the
length becomes 3, not 2. -/
theorem c4_counterexample :
    execSingle Token.shiftRight [0, 0] 0 [] = .ok ([0, 0, 0], 1, [], []) ∧
    ([0, 0, 0] : Cells).length ≠ ([0, 0] : Cells).length := by
  decide

/-- Claim C4, amended.  Executing pointer-right always appends a new cell
with value 0 at the end of the tape — whether or not the pointer is at the
last cell — and increments the pointer by exactly 1; the tape's length
always grows by 1. -/
theorem c4_shiftRight (d : Cells) (p : Nat) (s : List Line) :
    execSingle Token.shiftRight d p s = .ok (d ++ [0], p + 1, s, []) ∧
    (d ++ [0]).length = d.length + 1 := by
  exact ⟨rfl, by simp⟩

/-- On byte values `incCell` is addition of 1 modulo 256 on byte values. -/
theorem incCell_eq_mod (v : Nat) (h : v < 256) : incCell v = (v + 1) % 256 := by
  unfold incCell
  split <;> omega

/-- On byte values `decCell` is subtraction of 1 modulo 256 on byte values. -/
theorem decCell_eq_mod (v : Nat) (h : v < 256) : decCell v = (v + 255) % 256 := by
  unfold decCell
  split <;> omega

/-- Iterating `incCell` `n` times adds `n` modulo 256. -/
theorem incCell_iterate (n : Nat) : ∀ v : Nat, v < 256 →
    incCell^[n] v = (v + n) % 256 := by
  induction n with
  | zero => intro v h; simpa using (Nat.mod_eq_of_lt h).symm
  | succ n ih =>
    intro v h
    rw [Function.iterate_succ_apply, incCell_eq_mod v h,
      ih ((v + 1) % 256) (Nat.mod_lt _ (by norm_num)), Nat.mod_add_mod]
    omega

/-- Iterating `decCell` `n` times adds `255 · n` modulo 256. -/
theorem decCell_iterate (n : Nat) : ∀ v : Nat, v < 256 →
    decCell^[n] v = (v + 255 * n) % 256 := by
  induction n with
  | zero => intro v h; simpa using (Nat.mod_eq_of_lt h).symm
  | succ n ih =>
    intro v h
    rw [Function.iterate_succ_apply, decCell_eq_mod v h,
      ih ((v + 255) % 256) (Nat.mod_lt _ (by norm_num)), Nat.mod_add_mod]
    have harith : v + 255 + 255 * n = v + 255 * (n + 1) := by ring
    rw [harith]

/-- Claim C7.  On byte values, increment-cell is `(v + 1) mod 256` and
decrement-cell is `(v - 1) mod 256`; 256 applications of either return the
cell to its starting value, and with the pointer on a cell neither
operation errors. -/
theorem c7_wraparound (v : Nat) (hv : v < 256) :
    incCell v = (v + 1) % 256 ∧ decCell v = (v + 255) % 256 ∧
    incCell^[256] v = v ∧ decCell^[256] v = v ∧
    (∀ d s, execSingle Token.increment (v :: d) 0 s = .ok (incCell v :: d, 0, s, [])) ∧
    (∀ d s, execSingle Token.decrement (v :: d) 0 s = .ok (decCell v :: d, 0, s, [])) := by
  refine ⟨incCell_eq_mod v hv, decCell_eq_mod v hv, ?_, ?_,
    fun d s => by simp [execSingle], fun d s => by simp [execSingle]⟩
  · rw [incCell_iterate 256 v hv, Nat.add_mod_right, Nat.mod_eq_of_lt hv]
  · rw [decCell_iterate 256 v hv, Nat.add_mul_mod_self_right, Nat.mod_eq_of_lt hv]

/-- Witness for C7 at `v = 7`. -/
theorem c7_wraparound_witness : (7 : Nat) < 256 ∧ incCell^[256] 7 = 7 :=
  ⟨by norm_num, (c7_wraparound 7 (by norm_num)).2.2.1⟩

/-- Unfolding equation: parsing an exhausted token list. -/
theorem parseAux_nil (input : List Char) : parseAux input [] = PRes.ok [] := by
  simp [parseAux]

/-- Unfolding equation for a loop-begin token, with an ordinary
(non-dependent) match on the bracket scan. -/
theorem parseAux_cons_begin (input : List Char) (i : Nat) (rest : List (Nat × Token)) :
    parseAux input ((i, Token.beginLoop) :: rest) =
      match scanBody (input.drop (i + 1)) 1 0 with
      | none => PRes.panicked
      | some index =>
        match parseAux ((input.drop (i + 1)).take index)
            ((lex ((input.drop (i + 1)).take index)).enum) with
        | .ok item =>
          match parseAux input (rest.drop index) with
          | .ok tree => PRes.ok (SyntaxItem.loop item :: tree)
          | e => e
        | _ => PRes.panicked := by
  simp only [parseAux]
  split
  · next heq => rw [heq]
  · next index heq => rw [heq]

/-- Unfolding equation: a stray loop-end token is skipped. -/
theorem parseAux_cons_end (input : List Char) (i : Nat) (rest : List (Nat × Token)) :
    parseAux input ((i, Token.endLoop) :: rest) = parseAux input rest := by
  simp [parseAux]

/-- Unfolding equation for the six plain instruction tokens. -/
theorem parseAux_cons_single (input : List Char) (i : Nat) (rest : List (Nat × Token))
    (t : Token) (hb : t ≠ Token.beginLoop) (he : t ≠ Token.endLoop) :
    parseAux input ((i, t) :: rest) =
      match parseAux input rest with
      | .ok tree => PRes.ok (SyntaxItem.single t :: tree)
      | e => e := by
  match t, hb, he with
  | Token.increment, _, _ | Token.decrement, _, _ | Token.shiftLeft, _, _
  | Token.shiftRight, _, _ | Token.input, _, _ | Token.output, _, _ =>
    simp [parseAux]

/-- The parser never uses the recoverable `Err` channel of its
`Result<Vec<SyntaxItem>, String>` signature: every failure is a panic. -/
theorem parseAux_ne_err (input : List Char) (toks : List (Nat × Token)) :
    ∀ msg, parseAux input toks ≠ PRes.err msg := by
  induction input, toks using parseAux.induct with
  | case1 input => intro msg; simp [parseAux_nil]
  | case2 input i rest h => intro msg; simp [parseAux_cons_begin, h]
  | case3 input i rest index h innerSlice tree hin tree2 hout ih1 ih2 =>
    intro msg
    simp only [innerSlice] at hin
    simp [parseAux_cons_begin, h, hin, hout]
  | case4 input i rest index h innerSlice tree hin hout ih1 ih2 =>
    intro msg
    simp only [innerSlice] at hin
    simp only [parseAux_cons_begin, h, hin]
    cases hr : parseAux input (rest.drop index) with
    | ok l => exact absurd hr (by intro hc; exact hout l hc)
    | err m => exact absurd hr (by intro hc; exact ih2 m hc)
    | panicked => simp [hr]
  | case5 input i rest index h innerSlice hin ih1 =>
    intro msg
    simp only [innerSlice] at hin
    simp only [parseAux_cons_begin, h]
    cases hr : parseAux ((input.drop (i + 1)).take index)
        ((lex ((input.drop (i + 1)).take index)).enum) with
    | ok l => exact (hin l hr).elim
    | err m => simp
    | panicked => simp
  | case6 input i rest ih => intro msg; simpa [parseAux_cons_end] using ih msg
  | case7 input i rest t hb he tree hr ih =>
    intro msg
    simp [parseAux_cons_single input i rest t (by intro hc; exact hb hc) (by intro hc; exact he hc),
      hr]
  | case8 input i rest t hb he hno ih =>
    intro msg
    simp only [parseAux_cons_single input i rest t (by intro hc; exact hb hc)
      (by intro hc; exact he hc)]
    cases hr : parseAux input rest with
    | ok l => exact absurd hr (by intro hc; exact hno l hc)
    | err m => exact absurd hr (by intro hc; exact ih m hc)
    | panicked => simp [hr]

/-- Every tree the parser returns has only the six non-bracket
instructions at its `single` leaves. -/
theorem parseAux_leavesOK (input : List Char) (toks : List (Nat × Token)) :
    ∀ items, parseAux input toks = PRes.ok items → itemsLeavesOK items = true := by
  induction input, toks using parseAux.induct with
  | case1 input =>
    intro items h1
    rw [parseAux_nil] at h1
    cases h1
    rfl
  | case2 input i rest h =>
    intro items h1
    simp [parseAux_cons_begin, h] at h1
  | case3 input i rest index h innerSlice tree hin tree2 hout ih1 ih2 =>
    intro items h1
    simp only [innerSlice] at hin
    simp only [parseAux_cons_begin, h, hin, hout] at h1
    have h2 : items = SyntaxItem.loop tree :: tree2 := by
      cases h1
      rfl
    rw [h2]
    simp only [itemsLeavesOK, itemLeavesOK, Bool.and_eq_true]
    exact ⟨ih1 tree (by simpa only [innerSlice] using hin), ih2 tree2 hout⟩
  | case4 input i rest index h innerSlice tree hin hout ih1 ih2 =>
    intro items h1
    simp only [innerSlice] at hin
    simp only [parseAux_cons_begin, h, hin] at h1
    cases hr : parseAux input (rest.drop index) with
    | ok l => exact absurd hr (by intro hc; exact hout l hc)
    | err m => exact absurd hr (parseAux_ne_err input (rest.drop index) m)
    | panicked => rw [hr] at h1; simp at h1
  | case5 input i rest index h innerSlice hin ih1 =>
    intro items h1
    simp only [innerSlice] at hin
    simp only [parseAux_cons_begin, h] at h1
    cases hr : parseAux ((input.drop (i + 1)).take index)
        ((lex ((input.drop (i + 1)).take index)).enum) with
    | ok l => exact (hin l hr).elim
    | err m => simp at h1
    | panicked => simp at h1
  | case6 input i rest ih =>
    intro items h1
    rw [parseAux_cons_end] at h1
    exact ih items h1
  | case7 input i rest t hb he tree hr ih =>
    intro items h1
    rw [parseAux_cons_single input i rest t (by intro hc; exact hb hc)
      (by intro hc; exact he hc), hr] at h1
    have h2 : items = SyntaxItem.single t :: tree := by
      cases h1
      rfl
    rw [h2]
    simp only [itemsLeavesOK, itemLeavesOK, Bool.and_eq_true]
    refine ⟨by simp [decide_eq_true_iff]; exact ⟨fun hc => hb hc, fun hc => he hc⟩, ih tree hr⟩
  | case8 input i rest t hb he hno ih =>
    intro items h1
    rw [parseAux_cons_single input i rest t (by intro hc; exact hb hc)
      (by intro hc; exact he hc)] at h1
    cases hr : parseAux input rest with
    | ok l => exact absurd hr (by intro hc; exact hno l hc)
    | err m => exact absurd hr (parseAux_ne_err input rest m)
    | panicked => rw [hr] at h1; simp at h1

/-- Claim C2, a code bug.  The lexer does drop the comment character `a`
(first conjunct), and the comment-free program `[+]` parses; but the same
program with a leading comment character, `a[+]`, panics instead of
parsing, because `parse` slices the raw character string at token indices.
This falsifies "inserting comment characters into a well-bracketed program
never makes parsing fail". -/
theorem c2_comment_breaks_parse :
    lex ['a', '[', '+', ']'] = lex ['[', '+', ']'] ∧
    parse ['[', '+', ']'] = PRes.ok [SyntaxItem.loop [SyntaxItem.single Token.increment]] ∧
    parse ['a', '[', '+', ']'] = PRes.panicked := by
  refine ⟨by decide, ?_, ?_⟩ <;>
    simp [parse, parseAux, lex, charToken, scanBody, List.enum, List.enumFrom, List.filterMap]

/-- Claim C3, a code bug.  On `[` (a loop-begin with no matching loop-end)
parsing panics — an abort, not a recoverable error result; worse, on
`[aaa][` (whose final loop-begin is also unmatched) parsing *succeeds*,
because the bracket scan runs over the raw character string at a token
index.  The last conjunct shows the recoverable error channel is never
used at all. -/
theorem c3_unmatched_open :
    parse ['['] = PRes.panicked ∧
    parse ['[', 'a', 'a', 'a', ']', '['] = PRes.ok [SyntaxItem.loop []] ∧
    (∀ input msg, parse input ≠ PRes.err msg) := by
  refine ⟨?_, ?_, fun input msg => parseAux_ne_err input ((lex input).enum) msg⟩ <;>
    simp [parse, parseAux, lex, charToken, scanBody, List.enum, List.enumFrom, List.filterMap]

/-- Claim C9.  Whenever parsing succeeds, every `single` leaf anywhere in
the tree wraps one of the six non-bracket instructions; and the parser
handles a top-level stray loop-end token by skipping it: parsing resumes
on the remaining tokens exactly as if the stray token were absent. -/
theorem c9_leaves_and_stray_close :
    (∀ input items, parse input = PRes.ok items → itemsLeavesOK items = true) ∧
    (∀ (input : List Char) (i : Nat) (rest : List (Nat × Token)),
      parseAux input ((i, Token.endLoop) :: rest) = parseAux input rest) := by
  constructor
  · intro input items h1
    exact parseAux_leavesOK input ((lex input).enum) items h1
  · intro input i rest
    simp [parseAux]

/-- Witness for C9 on the program `]+[-]`: it parses despite the stray
loop-end, and its leaves are the plain instructions `+` and `-`. -/
theorem c9_leaves_witness :
    itemsLeavesOK [SyntaxItem.single Token.increment,
      SyntaxItem.loop [SyntaxItem.single Token.decrement]] = true :=
  c9_leaves_and_stray_close.1 [']', '+', '[', '-', ']']
    [SyntaxItem.single Token.increment, SyntaxItem.loop [SyntaxItem.single Token.decrement]]
    (by simp [parse, parseAux, lex, charToken, scanBody, List.enum, List.enumFrom, List.filterMap])

/-- Claim C6.  With the pointer on a cell, executing read-input on the next
line: writes the parsed value when the trimmed line parses as an unsigned
integer in `[0, 255]`; otherwise writes the first character's code point
truncated to 8 bits when the trimmed line is non-empty; and fails — with
`InputParseError` precisely — if and only if the trimmed line is empty.
In every case only the current cell is written (`data.set ptr _`) and the
pointer is unchanged. -/
theorem c6_readInput (data : Cells) (ptr : Nat) (line : Line) (rest : List Line)
    (h : ptr < data.length) :
    (∀ v, parseU8 (rustTrim line) = some v →
      execSingle Token.input data ptr (line :: rest) = .ok (data.set ptr v, ptr, rest, [])) ∧
    (∀ c t, rustTrim line = c :: t → parseU8 (rustTrim line) = none →
      execSingle Token.input data ptr (line :: rest) =
        .ok (data.set ptr (c.toNat % 256), ptr, rest, [])) ∧
    (execSingle Token.input data ptr (line :: rest) = .error RunErr.inputParse ↔
      rustTrim line = []) := by
  have hset : ∀ v, setCell data ptr v = some (data.set ptr v) := fun v => by simp [setCell, h]
  refine ⟨?_, ?_, ?_⟩
  · intro v hv
    simp [execSingle, hv, hset]
  · intro c t ht hn
    rw [ht] at hn
    simp [execSingle, ht, hn, hset]
  · cases hp : parseU8 (rustTrim line) with
    | some v =>
      constructor
      · intro habs
        rw [show execSingle Token.input data ptr (line :: rest) =
            .ok (data.set ptr v, ptr, rest, []) from by simp [execSingle, hp, hset]] at habs
        exact absurd habs (by simp)
      · intro hnil
        rw [hnil] at hp
        simp [parseU8] at hp
    | none =>
      cases ht : rustTrim line with
      | nil => simp [execSingle, ht, parseU8]
      | cons c t =>
        rw [ht] at hp
        simp [execSingle, ht, hp, hset]

/-- Witness for C6: reading the line `"5"` on the one-cell tape writes 5;
reading the line `"a"` writes 97; reading an empty line is the
input-parse failure. -/
theorem c6_readInput_witness :
    execSingle Token.input [0] 0 [['5']] = .ok ([5], 0, [], []) ∧
    execSingle Token.input [0] 0 [['a']] = .ok ([97], 0, [], []) ∧
    (execSingle Token.input [0] 0 [[]] = .error RunErr.inputParse ↔ ([] : Line) = []) :=
  ⟨(c6_readInput [0] 0 ['5'] [] (by decide)).1 5 (by decide),
   (c6_readInput [0] 0 ['a'] [] (by decide)).2.1 'a' [] (by decide) (by decide),
   (c6_readInput [0] 0 [] [] (by decide)).2.2⟩

/-- Claim C8.  Pointer-left at pointer 0 never errors: it prepends a fresh 0
cell, keeps the pointer at 0, and shifts every existing cell (in
particular the previous cell 0) one index to the right; at a positive
pointer it just decrements the pointer and leaves the tape untouched. -/
theorem c8_shiftLeft (d : Cells) (p : Nat) (s : List Line) :
    execSingle Token.shiftLeft d 0 s = .ok (0 :: d, 0, s, []) ∧
    (0 < p → execSingle Token.shiftLeft d p s = .ok (d, p - 1, s, [])) := by
  constructor
  · rfl
  · intro hp
    simp [execSingle, hp]

/-- Witness for C8: pointer-left on tape `[5]` at pointer 0, and on
`[5, 6]` at pointer 1. -/
theorem c8_shiftLeft_witness :
    execSingle Token.shiftLeft [5] 0 [] = .ok ([0, 5], 0, [], []) ∧
    execSingle Token.shiftLeft [5, 6] 1 [] = .ok ([5, 6], 0, [], []) :=
  ⟨(c8_shiftLeft [5] 1 []).1, (c8_shiftLeft [5, 6] 1 []).2 (by decide)⟩

/-- The cloned-state execution engine agrees with the live-mutation
semantics on every work item, for every fuel budget.  For a loop step the
agreement holds whenever the cloned state coincides with the live state —
which is how the source always enters the loop (`s = state.clone()`) and
re-enters it after each copy-back. -/
theorem runJob_eq_live (fuel : Nat) :
    (∀ cmds data ptr stdin, runJob fuel (Job.items cmds) data ptr stdin =
      runJobLive fuel (JobL.items cmds) data ptr stdin) ∧
    (∀ c data ptr stdin, runJob fuel (Job.item c) data ptr stdin =
      runJobLive fuel (JobL.item c) data ptr stdin) ∧
    (∀ v data ptr stdin, runJob fuel (Job.loopStep v data ptr) data ptr stdin =
      runJobLive fuel (JobL.loopStep v) data ptr stdin) := by
  induction fuel with
  | zero => exact ⟨fun _ _ _ _ => rfl, fun _ _ _ _ => rfl, fun _ _ _ _ => rfl⟩
  | succ fuel ih =>
    obtain ⟨ih1, ih2, ih3⟩ := ih
    refine ⟨?_, ?_, ?_⟩
    · intro cmds data ptr stdin
      cases cmds with
      | nil => rfl
      | cons c rest =>
        simp only [runJob, runJobLive]
        rw [ih2 c data ptr stdin]
        cases hr : runJobLive fuel (JobL.item c) data ptr stdin with
        | error e => rfl
        | ok r =>
          obtain ⟨d1, p1, in1, o1⟩ := r
          dsimp only
          rw [ih1 rest d1 p1 in1]
    · intro c data ptr stdin
      cases c with
      | single t => rfl
      | loop v =>
        simp only [runJob, runJobLive]
        exact ih3 v data ptr stdin
    · intro v data ptr stdin
      simp only [runJob, runJobLive]
      cases hc : data[ptr]? with
      | none => rfl
      | some cell =>
        by_cases h0 : cell = 0
        · simp [h0]
        · simp only [h0, if_false]
          rw [ih1 v data ptr stdin]
          cases hr : runJobLive fuel (JobL.items v) data ptr stdin with
          | error e => rfl
          | ok r =>
            obtain ⟨d1, p1, in1, o1⟩ := r
            dsimp only
            rw [ih3 v d1 p1 in1]

/-- Claim C1.  Executing a Loop-node on the cloned-state engine — clone the
run-state, run the body on the clone, copy tape and pointer back, re-test
the live cell — produces exactly the same result (final tape, pointer,
remaining input and output) as the spec's live-mutation loop semantics,
for every program, tape state and fuel budget; and the same holds for
whole command sequences. -/
theorem c1_loop_clone_eq_live (fuel : Nat) (v cmds : List SyntaxItem) (data : Cells)
    (ptr : Nat) (stdin : List Line) :
    runJob fuel (Job.item (SyntaxItem.loop v)) data ptr stdin =
      runJobLive fuel (JobL.item (SyntaxItem.loop v)) data ptr stdin ∧
    runJob fuel (Job.items cmds) data ptr stdin =
      runJobLive fuel (JobL.items cmds) data ptr stdin :=
  ⟨(runJob_eq_live fuel).2.1 (SyntaxItem.loop v) data ptr stdin,
   (runJob_eq_live fuel).1 cmds data ptr stdin⟩

/-- A single successful instruction keeps the pointer on the tape and
never shrinks the tape. -/
theorem execSingle_preserves (t : Token) (data : Cells) (ptr : Nat) (stdin : List Line)
    (d2 : Cells) (p2 : Nat) (in2 : List Line) (o : Out)
    (h : execSingle t data ptr stdin = .ok (d2, p2, in2, o)) (hp : ptr < data.length) :
    p2 < d2.length ∧ data.length ≤ d2.length := by
  cases t <;> simp only [execSingle] at h
  case increment =>
    cases hg : data[ptr]? with
    | none => rw [hg] at h; simp at h
    | some v =>
      rw [hg] at h
      simp only [Except.ok.injEq, Prod.mk.injEq] at h
      obtain ⟨h1, h2, -, -⟩ := h
      rw [← h1, ← h2]
      simp [hp]
  case decrement =>
    cases hg : data[ptr]? with
    | none => rw [hg] at h; simp at h
    | some v =>
      rw [hg] at h
      simp only [Except.ok.injEq, Prod.mk.injEq] at h
      obtain ⟨h1, h2, -, -⟩ := h
      rw [← h1, ← h2]
      simp [hp]
  case shiftLeft =>
    by_cases hptr : ptr > 0
    · rw [if_pos hptr] at h
      simp only [Except.ok.injEq, Prod.mk.injEq] at h
      obtain ⟨h1, h2, -, -⟩ := h
      rw [← h1, ← h2]
      omega
    · rw [if_neg hptr] at h
      simp only [Except.ok.injEq, Prod.mk.injEq] at h
      obtain ⟨h1, h2, -, -⟩ := h
      rw [← h1, ← h2]
      simp only [List.length_cons]
      omega
  case shiftRight =>
    simp only [Except.ok.injEq, Prod.mk.injEq] at h
    obtain ⟨h1, h2, -, -⟩ := h
    rw [← h1, ← h2]
    simp only [List.length_append, List.length_cons, List.length_nil]
    omega
  case input =>
    cases hpu : parseU8 (rustTrim (stdin.headD [])) with
    | some i =>
      rw [hpu] at h
      simp only [setCell, if_pos hp] at h
      simp only [Except.ok.injEq, Prod.mk.injEq] at h
      obtain ⟨h1, h2, -, -⟩ := h
      rw [← h1, ← h2]
      simp [hp]
    | none =>
      rw [hpu] at h
      cases ht : rustTrim (stdin.headD []) with
      | nil => rw [ht] at h; simp at h
      | cons c rest =>
        rw [ht] at h
        simp only [setCell, if_pos hp] at h
        simp only [Except.ok.injEq, Prod.mk.injEq] at h
        obtain ⟨h1, h2, -, -⟩ := h
        rw [← h1, ← h2]
        simp [hp]
  case output =>
    cases hg : data[ptr]? with
    | none => rw [hg] at h; simp at h
    | some v =>
      rw [hg] at h
      simp only [Except.ok.injEq, Prod.mk.injEq] at h
      obtain ⟨h1, h2, -, -⟩ := h
      rw [← h1, ← h2]
      exact ⟨hp, le_refl _⟩
  case beginLoop =>
    simp only [Except.ok.injEq, Prod.mk.injEq] at h
    obtain ⟨h1, h2, -, -⟩ := h
    rw [← h1, ← h2]
    exact ⟨hp, le_refl _⟩
  case endLoop =>
    simp only [Except.ok.injEq, Prod.mk.injEq] at h
    obtain ⟨h1, h2, -, -⟩ := h
    rw [← h1, ← h2]
    exact ⟨hp, le_refl _⟩

/-- Every successful run from a work item satisfying `jobPre` ends with
the pointer on the tape and a tape at least as long as it started. -/
theorem runJob_preserves (fuel : Nat) :
    ∀ job data ptr stdin d2 p2 in2 o,
      runJob fuel job data ptr stdin = .ok (d2, p2, in2, o) →
      jobPre job data ptr →
      p2 < d2.length ∧ data.length ≤ d2.length := by
  induction fuel with
  | zero =>
    intro job d p s d2 p2 in2 o h hpre
    simp [runJob] at h
  | succ fuel ih =>
    intro job d p s d2 p2 in2 o h hpre
    cases job with
    | items cmds =>
      cases cmds with
      | nil =>
        simp only [runJob, Except.ok.injEq, Prod.mk.injEq] at h
        obtain ⟨h1, h2, -, -⟩ := h
        rw [← h1, ← h2]
        exact ⟨hpre, le_refl _⟩
      | cons c rest =>
        simp only [runJob] at h
        cases h1 : runJob fuel (Job.item c) d p s with
        | error e => rw [h1] at h; simp at h
        | ok r1 =>
          obtain ⟨e1, q1, j1, v1⟩ := r1
          rw [h1] at h
          dsimp only at h
          cases h2 : runJob fuel (Job.items rest) e1 q1 j1 with
          | error e => rw [h2] at h; simp at h
          | ok r2 =>
            obtain ⟨e2, q2, j2, v2⟩ := r2
            rw [h2] at h
            simp only [Except.ok.injEq, Prod.mk.injEq] at h
            obtain ⟨hx1, hx2, -, -⟩ := h
            have ha := ih (Job.item c) d p s e1 q1 j1 v1 h1 hpre
            have hb := ih (Job.items rest) e1 q1 j1 e2 q2 j2 v2 h2 ha.1
            rw [← hx1, ← hx2]
            exact ⟨hb.1, le_trans ha.2 hb.2⟩
    | item c =>
      cases c with
      | single t =>
        simp only [runJob] at h
        exact execSingle_preserves t d p s d2 p2 in2 o h hpre
      | loop v =>
        simp only [runJob] at h
        exact ih (Job.loopStep v d p) d p s d2 p2 in2 o h ⟨hpre, hpre, le_refl _⟩
    | loopStep v sD sP =>
      obtain ⟨hp, hsp, hds⟩ := hpre
      simp only [runJob] at h
      cases hc : d[p]? with
      | none => rw [hc] at h; simp at h
      | some cell =>
        rw [hc] at h
        dsimp only at h
        by_cases h0 : cell = 0
        · rw [if_pos h0] at h
          simp only [Except.ok.injEq, Prod.mk.injEq] at h
          obtain ⟨h1, h2, -, -⟩ := h
          rw [← h1, ← h2]
          exact ⟨hp, le_refl _⟩
        · rw [if_neg h0] at h
          cases h1 : runJob fuel (Job.items v) sD sP s with
          | error e => rw [h1] at h; simp at h
          | ok r1 =>
            obtain ⟨e1, q1, j1, v1⟩ := r1
            rw [h1] at h
            dsimp only at h
            cases h2 : runJob fuel (Job.loopStep v e1 q1) e1 q1 j1 with
            | error e => rw [h2] at h; simp at h
            | ok r2 =>
              obtain ⟨e2, q2, j2, v2⟩ := r2
              rw [h2] at h
              simp only [Except.ok.injEq, Prod.mk.injEq] at h
              obtain ⟨hx1, hx2, -, -⟩ := h
              have ha := ih (Job.items v) sD sP s e1 q1 j1 v1 h1 hsp
              have hb := ih (Job.loopStep v e1 q1) e1 q1 j1 e2 q2 j2 v2 h2
                ⟨ha.1, ha.1, le_refl _⟩
              rw [← hx1, ← hx2]
              exact ⟨hb.1, by omega⟩

/-- Claim C5.  The initial state has its pointer on the tape (a single zero
cell, pointer 0), and every successfully executed instruction keeps the
pointer a valid index into the tape and never shrinks the tape — so the
invariant holds after every instruction of a run. -/
theorem c5_pointer_valid_tape_grows (cmds : List SyntaxItem) (fuel : Nat) (c : SyntaxItem)
    (data : Cells) (ptr : Nat) (stdin : List Line) (d2 : Cells) (p2 : Nat)
    (in2 : List Line) (o : Out)
    (h : runJob fuel (Job.item c) data ptr stdin = .ok (d2, p2, in2, o))
    (hp : ptr < data.length) :
    (State.new cmds).pointer < (State.new cmds).data.length ∧
    p2 < d2.length ∧ data.length ≤ d2.length :=
  ⟨by simp [State.new], (runJob_preserves fuel (Job.item c) data ptr stdin d2 p2 in2 o h hp).1,
   (runJob_preserves fuel (Job.item c) data ptr stdin d2 p2 in2 o h hp).2⟩

/-- Witness for C5: one increment instruction on the initial tape. -/
theorem c5_pointer_valid_witness :
    (State.new []).pointer < (State.new []).data.length ∧
    0 < ([1] : Cells).length ∧ ([0] : Cells).length ≤ ([1] : Cells).length :=
  c5_pointer_valid_tape_grows [] 2 (SyntaxItem.single Token.increment) [0] 0 [] [1] 0 [] []
    (by decide) (by decide)

/-- A run that succeeds within some fuel budget returns the same result
under any larger budget. -/
theorem runJob_mono (fuel : Nat) :
    ∀ fuel2 job data ptr stdin r, fuel ≤ fuel2 →
      runJob fuel job data ptr stdin = .ok r →
      runJob fuel2 job data ptr stdin = .ok r := by
  induction fuel with
  | zero =>
    intro fuel2 job d p s r hle h
    simp [runJob] at h
  | succ fuel ih =>
    intro fuel2 job d p s r hle h
    obtain ⟨m, rfl⟩ : ∃ m, fuel2 = m + 1 := ⟨fuel2 - 1, by omega⟩
    have hm : fuel ≤ m := by omega
    cases job with
    | items cmds =>
      cases cmds with
      | nil => simpa only [runJob] using h
      | cons c rest =>
        simp only [runJob] at h ⊢
        cases h1 : runJob fuel (Job.item c) d p s with
        | error e => rw [h1] at h; simp at h
        | ok r1 =>
          obtain ⟨e1, q1, j1, v1⟩ := r1
          rw [h1] at h
          dsimp only at h
          rw [ih m (Job.item c) d p s (e1, q1, j1, v1) hm h1]
          dsimp only
          cases h2 : runJob fuel (Job.items rest) e1 q1 j1 with
          | error e => rw [h2] at h; simp at h
          | ok r2 =>
            rw [h2] at h
            rw [ih m (Job.items rest) e1 q1 j1 r2 hm h2]
            exact h
    | item c =>
      cases c with
      | single t =>
        simp only [runJob] at h ⊢
        exact h
      | loop v =>
        simp only [runJob] at h ⊢
        exact ih m (Job.loopStep v d p) d p s r hm h
    | loopStep v sD sP =>
      simp only [runJob] at h ⊢
      cases hc : d[p]? with
      | none => rw [hc] at h; simp at h
      | some cell =>
        rw [hc] at h
        dsimp only at h ⊢
        by_cases h0 : cell = 0
        · rw [if_pos h0] at h ⊢
          exact h
        · rw [if_neg h0] at h ⊢
          cases h1 : runJob fuel (Job.items v) sD sP s with
          | error e => rw [h1] at h; simp at h
          | ok r1 =>
            obtain ⟨e1, q1, j1, v1⟩ := r1
            rw [h1] at h
            dsimp only at h
            rw [ih m (Job.items v) sD sP s (e1, q1, j1, v1) hm h1]
            dsimp only
            cases h2 : runJob fuel (Job.loopStep v e1 q1) e1 q1 j1 with
            | error e => rw [h2] at h; simp at h
            | ok r2 =>
              rw [h2] at h
              rw [ih m (Job.loopStep v e1 q1) e1 q1 j1 r2 hm h2]
              exact h

/-- Claim C10.  The interpreter is deterministic: any two runs of the same
parsed program on the same initial tape, pointer and input-line sequence
that both terminate successfully — regardless of the fuel budgets under
which they were observed — end with identical tape contents, pointer
position, remaining input, and output byte sequence. -/
theorem c10_deterministic (fuel1 fuel2 : Nat) (cmds : List SyntaxItem) (data : Cells)
    (ptr : Nat) (stdin : List Line) (r1 r2 : Cells × Nat × List Line × Out)
    (h1 : runJob fuel1 (Job.items cmds) data ptr stdin = .ok r1)
    (h2 : runJob fuel2 (Job.items cmds) data ptr stdin = .ok r2) :
    r1 = r2 := by
  rcases Nat.le_total fuel1 fuel2 with hle | hle
  · have h3 := runJob_mono fuel1 fuel2 (Job.items cmds) data ptr stdin r1 hle h1
    rw [h3] at h2
    exact Except.ok.inj h2
  · have h3 := runJob_mono fuel2 fuel1 (Job.items cmds) data ptr stdin r2 hle h2
    rw [h3] at h1
    exact (Except.ok.inj h1).symm

/-- Witness for C10: the program `+` run with fuel 3 and fuel 9 reaches
the same final configuration. -/
theorem c10_deterministic_witness : (([1], 0, [], []) : Cells × Nat × List Line × Out) =
    (([1], 0, [], []) : Cells × Nat × List Line × Out) :=
  c10_deterministic 3 9 [SyntaxItem.single Token.increment] [0] 0 []
    ([1], 0, [], []) ([1], 0, [], []) (by decide) (by decide)

end BF
